import Mathlib

/-!
Shallow embedding of the record-reconciliation core of
`src/correct-airports-with-openflights.js` (class `AirportCorrector`).

Strings are modelled as `List Char`.  A JS `null`/missing string field is
modelled as the empty list where the code only ever tests truthiness, and as
`Option (List Char)` where the null case takes a different code path
(`normalizeName` dereferences its argument without a guard, so a null
argument raises a TypeError; this is modelled as `Option.none`).
JS `toLowerCase`/`toUpperCase` are modelled on the ASCII range, which is
exact for all inputs whose letters are ASCII.
-/

set_option maxRecDepth 8000

namespace AirportData

/-- The JS regex word class `\w`: ASCII letters, digits and underscore. -/
def isJsWordChar (c : Char) : Bool :=
  (97 ≤ c.toNat && c.toNat ≤ 122) || (65 ≤ c.toNat && c.toNat ≤ 90) ||
  (48 ≤ c.toNat && c.toNat ≤ 57) || c.toNat == 95

/-- The JS regex whitespace class `\s`. -/
def isJsSpace (c : Char) : Bool :=
  c.toNat == 32 || c.toNat == 9 || c.toNat == 10 || c.toNat == 11 ||
  c.toNat == 12 || c.toNat == 13 || c.toNat == 160 || c.toNat == 5760 ||
  (8192 ≤ c.toNat && c.toNat ≤ 8202) || c.toNat == 8232 || c.toNat == 8233 ||
  c.toNat == 8239 || c.toNat == 8287 || c.toNat == 12288 || c.toNat == 65279

/-- ASCII-range model of the JS toLowerCase. -/
def jsLower (c : Char) : Char :=
  if 65 ≤ c.toNat ∧ c.toNat ≤ 90 then Char.ofNat (c.toNat + 32) else c

/-- ASCII-range model of the JS toUpperCase. -/
def jsUpper (c : Char) : Char :=
  if 97 ≤ c.toNat ∧ c.toNat ≤ 122 then Char.ofNat (c.toNat - 32) else c

/-- One character is a contiguous substring of another string:
`big.includes(small)` in JS. -/
def isSubstring (small : List Char) : List Char → Bool
  | [] => small.isPrefixOf []
  | c :: cs => small.isPrefixOf (c :: cs) || isSubstring small cs

/-- Left-to-right scan of `.replace(/t1|t2|...|tk/gi, '')` on an already
lowercased string: at each position the first alternative that matches is
removed and scanning resumes after it; otherwise the character is kept.
`fuel` bounds the recursion; with `fuel = s.length` it never runs out for
the non-empty token lists used below, and on exhaustion the rest of the
string is kept unchanged. -/
def stripScan (toks : List (List Char)) : Nat → List Char → List Char
  | _, [] => []
  | 0, s => s
  | fuel + 1, c :: cs =>
    match toks.find? (fun t => t.isPrefixOf (c :: cs)) with
    | some t => stripScan toks fuel ((c :: cs).drop t.length)
    | none => c :: stripScan toks fuel cs

/-- Global removal of every occurrence of the given tokens. -/
def stripTokens (toks : List (List Char)) (s : List Char) : List Char :=
  stripScan toks s.length s

/-- Helper for the whitespace-collapsing replace: each maximal run of
whitespace becomes one space.  The flag records whether the previous
character was whitespace. -/
def collapseAux : Bool → List Char → List Char
  | _, [] => []
  | prevSpace, c :: cs =>
    if isJsSpace c then
      if prevSpace then collapseAux true cs
      else ' ' :: collapseAux true cs
    else c :: collapseAux false cs

/-- Whitespace collapsing: every maximal whitespace run becomes one space. -/
def collapseSpaces (s : List Char) : List Char :=
  collapseAux false s

/-- JS trim: drop whitespace from both ends. -/
def jsTrim (s : List Char) : List Char :=
  (((s.dropWhile isJsSpace).reverse.dropWhile isJsSpace)).reverse

/-- The alternatives of the name-stripping regex
`/international|airport|air base|airfield|aerodrome/gi`. -/
def nameTokens : List (List Char) :=
  ["international".data, "airport".data, "air base".data,
   "airfield".data, "aerodrome".data]

/-- The alternatives of the country-stripping regex: republic of,
kingdom of, peoples democratic republic of (with an apostrophe, written
below with an escape), democratic republic of. -/
def countryTokens : List (List Char) :=
  ["republic of".data, "kingdom of".data,
   "people\x27s democratic republic of".data,
   "democratic republic of".data]

/-- Source function normalizeName (lines 75-82): lowercase, strip the
airport words, remove every character outside the word and whitespace
classes, collapse whitespace, trim. -/
def normalizeName (name : List Char) : List Char :=
  jsTrim (collapseSpaces
    ((stripTokens nameTokens (name.map jsLower)).filter
      (fun c => isJsWordChar c || isJsSpace c)))

/-- Source function normalizeCountry (lines 148-154) on a non-null
string: lowercase, strip the political phrases, collapse whitespace,
trim.  There is no punctuation-removal step. -/
def normalizeCountry (country : List Char) : List Char :=
  jsTrim (collapseSpaces (stripTokens countryTokens (country.map jsLower)))

/-- Nullable variant of normalizeName: the source dereferences the
argument with no guard, so a null argument raises a TypeError, modelled
as the none result. -/
def normalizeNameNullable (name : Option (List Char)) : Option (List Char) :=
  match name with
  | none => none
  | some s => some (normalizeName s)

/-- Nullable variant of normalizeCountry: the source coerces a null
argument to the empty string before normalizing. -/
def normalizeCountryNullable (country : Option (List Char)) : List Char :=
  normalizeCountry (country.getD [])

/-- One OpenFlights reference record.  Missing string fields are modelled
as the empty list (the source only tests them for truthiness). -/
structure OFRecord where
  name : List Char
  iataCode : List Char
  icaoCode : List Char
  city : List Char
  country : List Char
  id : List Char
  latitude : List Char
  longitude : List Char
  altitude : List Char
deriving DecidableEq

/-- One candidate airport record (`yourAirport`).  `extra` carries every
own property other than the five identity fields, as an association list;
object spread copies them all. -/
structure Candidate where
  airportCode : List Char
  icaoCode : List Char
  airportName : List Char
  city : List Char
  country : List Char
  extra : List (List Char × List Char)
deriving DecidableEq

/-- Insertion-ordered map, as a JS `Map` is iterated in insertion order. -/
abbrev NameIndex := List (List Char × List OFRecord)

/-- Insertion-ordered map from uppercased IATA code to a single record. -/
abbrev IataIndex := List (List Char × OFRecord)

/-- Lookup in an insertion-ordered map: first binding of the key, as the
JS Map get. -/
def mapGet {β : Type} (m : List (List Char × β)) (k : List Char) : Option β :=
  match m with
  | [] => none
  | (k', v) :: rest => if k' = k then some v else mapGet rest k

/-- Appending a record to a name bucket: the key keeps its insertion
position, a fresh key goes to the end (`Map.set` / `Array.push`). -/
def nameInsert (m : NameIndex) (k : List Char) (r : OFRecord) : NameIndex :=
  match m with
  | [] => [(k, [r])]
  | (k', v) :: rest =>
    if k' = k then (k', v ++ [r]) :: rest else (k', v) :: nameInsert rest k r

/-- Insertion into the IATA map: last write wins, position preserved. -/
def iataInsert (m : IataIndex) (k : List Char) (r : OFRecord) : IataIndex :=
  match m with
  | [] => [(k, r)]
  | (k', v) :: rest =>
    if k' = k then (k', r) :: rest else (k', v) :: iataInsert rest k r

/-- Source function createLookupMaps (lines 52-69): build the name index
over records with a truthy name and the IATA index over records with a
truthy IATA code. -/
def createLookupMaps (data : List OFRecord) : NameIndex × IataIndex :=
  data.foldl
    (fun maps a =>
      let m1 := if a.name ≠ [] then nameInsert maps.1 (normalizeName a.name) a
                else maps.1
      let m2 := if a.iataCode ≠ [] then iataInsert maps.2 (a.iataCode.map jsUpper) a
                else maps.2
      (m1, m2))
    ([], [])

/-- The match strategy tags of `findOpenFlightsMatch`. -/
inductive MatchType where
  | exactNameCountry
  | exactName
  | partialName
  | iata
deriving DecidableEq

/-- Helper for splitting on every single space character. -/
def splitOnSpaceAux : List Char → List Char → List (List Char)
  | [], acc => [acc.reverse]
  | c :: cs, acc =>
    if c = ' ' then acc.reverse :: splitOnSpaceAux cs []
    else splitOnSpaceAux cs (c :: acc)

/-- Splitting on single spaces, producing possibly empty segments. -/
def splitOnSpace (s : List Char) : List (List Char) :=
  splitOnSpaceAux s []

/-- Candidate tokens sharing a substring (in either direction) with some
bucket token: `ofWords.some(ow => ow.includes(w) || w.includes(ow))`. -/
def commonWords (words ofWords : List (List Char)) : List (List Char) :=
  words.filter (fun w =>
    ofWords.any (fun ow => isSubstring w ow || isSubstring ow w))

/-- The bucket scan of `findPartialNameMatch` (source lines 125-143):
for each bucket in index order, if enough candidate tokens overlap the
bucket-key tokens, return the first record of the bucket whose normalized
country equals that of the candidate; otherwise keep scanning. -/
def partialLoop (words : List (List Char)) (country : List Char) :
    NameIndex → Option OFRecord
  | [] => none
  | (key, airports) :: rest =>
    let ofWords := (splitOnSpace key).filter (fun w => 2 < w.length)
    let common := commonWords words ofWords
    if Nat.min 2 ((words.length + 1) / 2) ≤ common.length then
      match airports.find?
          (fun a => decide (normalizeCountry a.country = normalizeCountry country)) with
      | some r => some r
      | none => partialLoop words country rest
    else partialLoop words country rest

/-- Source function findPartialNameMatch (lines 119-146). -/
def findPartialNameMatch (normalizedName country : List Char)
    (nameIdx : NameIndex) : Option OFRecord :=
  if normalizedName.length < 4 then none
  else
    let words := (splitOnSpace normalizedName).filter (fun w => 2 < w.length)
    if words = [] then none
    else partialLoop words country nameIdx

/-- Strategy 1 of `findOpenFlightsMatch` (source lines 85-100): look up
the normalized candidate name; on a non-empty bucket prefer the first
record of the same normalized country, else take the first record of the
bucket. -/
def exactNameStep (c : Candidate) (nameIdx : NameIndex) :
    Option (OFRecord × MatchType) :=
  match mapGet nameIdx (normalizeName c.airportName) with
  | some exactMatches =>
    match exactMatches with
    | [] => none
    | first :: _ =>
      match exactMatches.find?
          (fun m => decide (normalizeCountry m.country = normalizeCountry c.country)) with
      | some countryMatch => some (countryMatch, MatchType.exactNameCountry)
      | none => some (first, MatchType.exactName)
  | none => none

/-- Strategy 3 of `findOpenFlightsMatch` (source lines 108-114): if the
candidate has a truthy IATA code, look it up uppercased. -/
def iataStep (c : Candidate) (iataIdx : IataIndex) :
    Option (OFRecord × MatchType) :=
  if c.airportCode ≠ [] then
    match mapGet iataIdx (c.airportCode.map jsUpper) with
    | some im => some (im, MatchType.iata)
    | none => none
  else none

/-- Source function findOpenFlightsMatch (lines 84-117): exact
normalized-name lookup with country preference, then partial name match,
then IATA-code fallback; first success wins. -/
def findOpenFlightsMatch (c : Candidate) (nameIdx : NameIndex)
    (iataIdx : IataIndex) : Option (OFRecord × MatchType) :=
  match exactNameStep c nameIdx with
  | some r => some r
  | none =>
    match findPartialNameMatch (normalizeName c.airportName) c.country nameIdx with
    | some pm => some (pm, MatchType.partialName)
    | none => iataStep c iataIdx

/-- Variant of findOpenFlightsMatch with the partial-name strategy
removed: exact-name step, then the IATA fallback. -/
def matchWithoutPartial (c : Candidate) (nameIdx : NameIndex)
    (iataIdx : IataIndex) : Option (OFRecord × MatchType) :=
  match exactNameStep c nameIdx with
  | some r => some r
  | none => iataStep c iataIdx

/-- Source function needsCorrection (lines 156-182): the ordered list of
human-readable diff entries (IATA, ICAO, city, then name compared through
normalizeName). -/
def needsCorrection (c : Candidate) (m : OFRecord) : List (List Char) :=
  (if c.airportCode ≠ m.iataCode then
    ["IATA: ".data ++ c.airportCode ++ " → ".data ++ m.iataCode] else []) ++
  (if c.icaoCode ≠ m.icaoCode then
    ["ICAO: ".data ++ c.icaoCode ++ " → ".data ++ m.icaoCode] else []) ++
  (if c.city ≠ m.city then
    ["City: ".data ++ c.city ++ " → ".data ++ m.city] else []) ++
  (if normalizeName c.airportName ≠ normalizeName m.name then
    ["Name: ".data ++ c.airportName ++ " → ".data ++ m.name] else [])

/-- The `correctionStatus` values written by the source. -/
inductive CorrectionStatus where
  | corrected
  | noCorrectionNeeded
  | noMatch
deriving DecidableEq

/-- The `originalData` audit block of a corrected record. -/
structure OriginalData where
  airportCode : List Char
  icaoCode : List Char
  airportName : List Char
  city : List Char
  country : List Char
deriving DecidableEq

/-- The `openFlightsData` block of a corrected record. -/
structure OpenFlightsMeta where
  id : List Char
  latitude : List Char
  longitude : List Char
  altitude : List Char
deriving DecidableEq

/-- An output record of the correction pass.  `matchType = none` models
the string tag used by the unverified branch; absent metadata blocks
are `none` and an absent corrections list is `[]`. -/
structure OutRecord where
  airportCode : List Char
  icaoCode : List Char
  airportName : List Char
  city : List Char
  country : List Char
  extra : List (List Char × List Char)
  correctionStatus : CorrectionStatus
  matchType : Option MatchType
  corrections : List (List Char)
  originalData : Option OriginalData
  openFlightsData : Option OpenFlightsMeta
  unverified : Bool
deriving DecidableEq

/-- Source function correctAirport (lines 184-220): if no field differs,
return the candidate tagged as needing no correction; otherwise overwrite
the five identity fields wholesale from the reference record and attach
the audit metadata.  Object spread carries every other candidate field
through. -/
def correctAirport (c : Candidate) (m : OFRecord) (t : MatchType) : OutRecord :=
  let corrections := needsCorrection c m
  if corrections = [] then
    { airportCode := c.airportCode, icaoCode := c.icaoCode,
      airportName := c.airportName, city := c.city, country := c.country,
      extra := c.extra,
      correctionStatus := CorrectionStatus.noCorrectionNeeded,
      matchType := some t, corrections := [],
      originalData := none, openFlightsData := none, unverified := false }
  else
    { airportCode := m.iataCode, icaoCode := m.icaoCode,
      airportName := m.name, city := m.city, country := m.country,
      extra := c.extra,
      correctionStatus := CorrectionStatus.corrected,
      matchType := some t, corrections := corrections,
      originalData := some ⟨c.airportCode, c.icaoCode, c.airportName,
        c.city, c.country⟩,
      openFlightsData := some ⟨m.id, m.latitude, m.longitude, m.altitude⟩,
      unverified := false }

/-- The per-candidate body of `processAirports` (source lines 231-273):
reconcile against the first match, or mark the record unverified. -/
def processOne (c : Candidate) (nameIdx : NameIndex) (iataIdx : IataIndex) :
    OutRecord :=
  match findOpenFlightsMatch c nameIdx iataIdx with
  | some (m, t) => correctAirport c m t
  | none =>
    { airportCode := c.airportCode, icaoCode := c.icaoCode,
      airportName := c.airportName, city := c.city, country := c.country,
      extra := c.extra,
      correctionStatus := CorrectionStatus.noMatch,
      matchType := none, corrections := [],
      originalData := none, openFlightsData := none, unverified := true }

/-- Modelled from the spec wording of the partial-hit rule: identical
bucket scan to `partialLoop` (a bucket is a hit when the overlap count
reaches `min 2 ⌈n/2⌉`; a hit bucket yields its first country-matching
record, otherwise the scan continues). -/
def claimPartialLoop (words : List (List Char)) (country : List Char) :
    NameIndex → Option OFRecord
  | [] => none
  | (key, airports) :: rest =>
    let ofWords := (splitOnSpace key).filter (fun w => 2 < w.length)
    let common := commonWords words ofWords
    if Nat.min 2 ((words.length + 1) / 2) ≤ common.length then
      match airports.find?
          (fun a => decide (normalizeCountry a.country = normalizeCountry country)) with
      | some r => some r
      | none => claimPartialLoop words country rest
    else claimPartialLoop words country rest

/-- Modelled from the spec wording of the partial-name strategy as the
claim states it for candidates of normalized length at least 4: tokenize,
then scan the buckets — with no special case for a candidate that has no
token longer than two characters. -/
def claimPartialNameMatch (normalizedName country : List Char)
    (nameIdx : NameIndex) : Option OFRecord :=
  claimPartialLoop ((splitOnSpace normalizedName).filter (fun w => 2 < w.length))
    country nameIdx

/-- Modelled from the spec: the country key as the claim derives it — the
full name pipeline (lowercase, strip the country phrases, remove every
character outside the word and whitespace classes, collapse whitespace,
trim). -/
def claimNormalizeCountry (s : List Char) : List Char :=
  jsTrim (collapseSpaces ((stripTokens countryTokens (s.map jsLower)).filter
    (fun c => isJsWordChar c || isJsSpace c)))

/-- The amended country-key derivation: lowercase, strip the country
phrases, collapse whitespace, trim — no punctuation-removal step. -/
def claimNormalizeCountryAmended (s : List Char) : List Char :=
  jsTrim (collapseSpaces (stripTokens countryTokens (s.map jsLower)))

/-- A reference record whose normalized name is `paris orly`. -/
def sampleRef : OFRecord :=
  ⟨"Paris Orly".data, "ORY".data, "LFPO".data, "Paris".data, "France".data,
   "1".data, "48.72".data, "2.36".data, "291".data⟩

/-- Indexes built from the one-record reference set `[sampleRef]`. -/
def sampleMaps : NameIndex × IataIndex := createLookupMaps [sampleRef]

/-- A candidate whose name exact-matches `sampleRef` in the same country
and whose IATA code is also indexed. -/
def sampleCandidate : Candidate :=
  ⟨"ORY".data, "LFPO".data, "Paris Orly Airport".data, "Paris".data,
   "France".data, [("runwayCategory".data, "long".data)]⟩

/-- A candidate agreeing with `sampleRef` except in its ICAO code. -/
def icaoOffCandidate : Candidate :=
  ⟨"ORY".data, "XXXX".data, "Paris Orly Airport".data, "Paris".data,
   "France".data, [("runwayCategory".data, "long".data)]⟩

/-- A candidate whose normalized name `la` is shorter than 4 characters. -/
def shortNameCandidate : Candidate :=
  ⟨"ORY".data, "LFPO".data, "LA".data, "Paris".data, "France".data, []⟩

/-- A reference record whose raw name is truthy but normalizes to the
empty key. -/
def bareAirportRef : OFRecord :=
  ⟨"Airport".data, "AAA".data, "ZZZZ".data, "Nowhere".data, "France".data,
   "2".data, [], [], []⟩

/-- Indexes built from `[bareAirportRef]`: the name index has a bucket
for the empty key. -/
def bareMaps : NameIndex × IataIndex := createLookupMaps [bareAirportRef]

/-- A candidate with an empty name and an empty IATA code. -/
def emptyCandidate : Candidate :=
  ⟨[], [], [], [], "France".data, []⟩

/-- A reference record with the single-token normalized name `xyz`. -/
def xyzRef : OFRecord :=
  ⟨"Xyz".data, "XYZ".data, "YXYZ".data, "Xyzville".data, "France".data,
   "3".data, [], [], []⟩

/-- The name index built from `[xyzRef]`. -/
def xyzMaps : NameIndex × IataIndex := createLookupMaps [xyzRef]

/-- A character that can appear in a normalized key: fixed by lowercasing,
and either in the word class or exactly a space. -/
def charOK (c : Char) : Bool :=
  (jsLower c == c) && (isJsWordChar c || c == ' ')

/-- Two adjacent characters are not both whitespace. -/
def spaceRel (a b : Char) : Prop :=
  ¬(isJsSpace a = true ∧ isJsSpace b = true)

/-- Canonical form of a normalized key: every character from the
normalized alphabet, no two adjacent whitespace characters, and no
whitespace at either end. -/
def canonical (y : List Char) : Prop :=
  (∀ c ∈ y, charOK c = true) ∧ List.Chain' spaceRel y ∧
  (∀ c, y.head? = some c → isJsSpace c = false) ∧
  (∀ c, y.reverse.head? = some c → isJsSpace c = false)

theorem toNat_ofNat_valid {n : Nat} (h1 : 97 ≤ n) (h2 : n ≤ 122) :
    (Char.ofNat n).toNat = n := by
  have hv : n.isValidChar := Or.inl (by omega)
  simp [Char.ofNat, hv, Char.ofNatAux, Char.toNat, UInt32.toNat,
    BitVec.toNat_ofNatLt]

theorem jsLower_fix (c : Char) (h : ¬(65 ≤ c.toNat ∧ c.toNat ≤ 90)) :
    jsLower c = c := by
  unfold jsLower
  rw [if_neg h]

theorem jsLower_toNat_of_upper (c : Char) (h : 65 ≤ c.toNat ∧ c.toNat ≤ 90) :
    (jsLower c).toNat = c.toNat + 32 := by
  unfold jsLower
  rw [if_pos h]
  exact toNat_ofNat_valid (by omega) (by omega)

theorem jsLower_idem (c : Char) : jsLower (jsLower c) = jsLower c := by
  by_cases h : 65 ≤ c.toNat ∧ c.toNat ≤ 90
  · have ht := jsLower_toNat_of_upper c h
    exact jsLower_fix _ (by omega)
  · rw [jsLower_fix c h]
    exact jsLower_fix c h

theorem word_not_space (c : Char) (h : isJsWordChar c = true) :
    isJsSpace c = false := by
  simp only [isJsWordChar, Bool.or_eq_true, Bool.and_eq_true,
    decide_eq_true_eq, beq_iff_eq] at h
  simp only [isJsSpace, Bool.or_eq_false_iff, Bool.and_eq_false_iff,
    decide_eq_false_iff_not, beq_eq_false_iff_ne, ne_eq]
  omega

theorem exactNameStep_rules (c : Candidate) (nameIdx : NameIndex)
    (r : OFRecord) (t : MatchType)
    (h : exactNameStep c nameIdx = some (r, t)) :
    t = MatchType.exactNameCountry ∨ t = MatchType.exactName := by
  unfold exactNameStep at h
  split at h
  · split at h
    · cases h
    · split at h
      · simp only [Option.some.injEq, Prod.mk.injEq] at h
        exact Or.inl h.2.symm
      · simp only [Option.some.injEq, Prod.mk.injEq] at h
        exact Or.inr h.2.symm
  · cases h

theorem iataStep_rules (c : Candidate) (iataIdx : IataIndex)
    (r : OFRecord) (t : MatchType) (h : iataStep c iataIdx = some (r, t)) :
    t = MatchType.iata := by
  unfold iataStep at h
  split at h
  · split at h
    · simp only [Option.some.injEq, Prod.mk.injEq] at h
      exact h.2.symm
    · cases h
  · cases h

/-- C1: a candidate whose normalized name hits a bucket containing a
record of its own normalized country is matched by the exact-name-country
strategy — for any IATA index whatsoever — and the returned record is the
first country-matching record of that bucket. -/
theorem c1_exact_name_country_short_circuits (c : Candidate)
    (nameIdx : NameIndex) (iataIdx : IataIndex) (bucket : List OFRecord)
    (r : OFRecord)
    (hlook : mapGet nameIdx (normalizeName c.airportName) = some bucket)
    (hmem : r ∈ bucket)
    (hcountry : normalizeCountry r.country = normalizeCountry c.country) :
    ∃ rr, rr ∈ bucket ∧
      normalizeCountry rr.country = normalizeCountry c.country ∧
      findOpenFlightsMatch c nameIdx iataIdx =
        some (rr, MatchType.exactNameCountry) := by
  have hfind : (bucket.find?
      (fun m => decide (normalizeCountry m.country = normalizeCountry c.country))).isSome := by
    rw [List.find?_isSome]
    exact ⟨r, hmem, by simp [hcountry]⟩
  obtain ⟨rr, hrr⟩ := Option.isSome_iff_exists.mp hfind
  have hmm := List.mem_of_find?_eq_some hrr
  have hcc := List.find?_some hrr
  refine ⟨rr, hmm, by simpa using hcc, ?_⟩
  have hex : exactNameStep c nameIdx = some (rr, MatchType.exactNameCountry) := by
    simp only [exactNameStep, hlook]
    cases bucket with
    | nil => cases hmem
    | cons first rest => simp only [hrr]
  unfold findOpenFlightsMatch
  rw [hex]

theorem c1_witness :
    ∃ rr, rr ∈ [sampleRef] ∧
      normalizeCountry rr.country = normalizeCountry sampleCandidate.country ∧
      findOpenFlightsMatch sampleCandidate sampleMaps.1 sampleMaps.2 =
        some (rr, MatchType.exactNameCountry) :=
  c1_exact_name_country_short_circuits sampleCandidate sampleMaps.1
    sampleMaps.2 [sampleRef] sampleRef (by decide) (by decide) (by decide)

/-- C3: whenever any compared field differs, the corrected record carries
the IATA code, ICAO code, name, city and country of the reference record
at once. -/
theorem c3_whole_record_overwrite (c : Candidate) (m : OFRecord)
    (t : MatchType) (h : needsCorrection c m ≠ []) :
    (correctAirport c m t).correctionStatus = CorrectionStatus.corrected ∧
    (correctAirport c m t).airportCode = m.iataCode ∧
    (correctAirport c m t).icaoCode = m.icaoCode ∧
    (correctAirport c m t).airportName = m.name ∧
    (correctAirport c m t).city = m.city ∧
    (correctAirport c m t).country = m.country := by
  simp [correctAirport, h]

theorem c3_witness :
    needsCorrection icaoOffCandidate sampleRef ≠ [] ∧
    ((correctAirport icaoOffCandidate sampleRef
        MatchType.exactNameCountry).correctionStatus =
          CorrectionStatus.corrected ∧
      (correctAirport icaoOffCandidate sampleRef
        MatchType.exactNameCountry).airportCode = sampleRef.iataCode ∧
      (correctAirport icaoOffCandidate sampleRef
        MatchType.exactNameCountry).icaoCode = sampleRef.icaoCode ∧
      (correctAirport icaoOffCandidate sampleRef
        MatchType.exactNameCountry).airportName = sampleRef.name ∧
      (correctAirport icaoOffCandidate sampleRef
        MatchType.exactNameCountry).city = sampleRef.city ∧
      (correctAirport icaoOffCandidate sampleRef
        MatchType.exactNameCountry).country = sampleRef.country) :=
  ⟨by decide, c3_whole_record_overwrite icaoOffCandidate sampleRef
    MatchType.exactNameCountry (by decide)⟩

/-- C6: a candidate whose normalized name is shorter than 4 characters
never produces a partial-name result; matching coincides with the matcher
that goes straight from the exact-name step to the IATA step. -/
theorem c6_partial_floor (c : Candidate) (nameIdx : NameIndex)
    (iataIdx : IataIndex)
    (hshort : (normalizeName c.airportName).length < 4) :
    findPartialNameMatch (normalizeName c.airportName) c.country nameIdx
        = none ∧
    findOpenFlightsMatch c nameIdx iataIdx =
      matchWithoutPartial c nameIdx iataIdx ∧
    ∀ r, findOpenFlightsMatch c nameIdx iataIdx ≠
      some (r, MatchType.partialName) := by
  have hp : findPartialNameMatch (normalizeName c.airportName) c.country
      nameIdx = none := by
    unfold findPartialNameMatch
    rw [if_pos hshort]
  refine ⟨hp, ?_, ?_⟩
  · unfold findOpenFlightsMatch matchWithoutPartial
    rw [hp]
  · intro r hr
    unfold findOpenFlightsMatch at hr
    rw [hp] at hr
    cases hex : exactNameStep c nameIdx with
    | some val =>
      rw [hex] at hr
      simp only [Option.some.injEq] at hr
      subst hr
      rcases exactNameStep_rules c nameIdx r MatchType.partialName hex
        with h | h <;> cases h
    | none =>
      rw [hex] at hr
      have := iataStep_rules c iataIdx r MatchType.partialName hr
      cases this

theorem c6_witness :
    (normalizeName shortNameCandidate.airportName).length < 4 ∧
    (findPartialNameMatch (normalizeName shortNameCandidate.airportName)
        shortNameCandidate.country sampleMaps.1 = none ∧
      findOpenFlightsMatch shortNameCandidate sampleMaps.1 sampleMaps.2 =
        matchWithoutPartial shortNameCandidate sampleMaps.1 sampleMaps.2 ∧
      ∀ r, findOpenFlightsMatch shortNameCandidate sampleMaps.1 sampleMaps.2 ≠
        some (r, MatchType.partialName)) :=
  ⟨by decide, c6_partial_floor shortNameCandidate sampleMaps.1
    sampleMaps.2 (by decide)⟩

/-- C10: every candidate field outside the five identity fields and the
added metadata passes through `correctAirport` unchanged, in both the
corrected and the no-correction branch. -/
theorem c10_extra_fields_pass_through (c : Candidate) (m : OFRecord)
    (t : MatchType) : (correctAirport c m t).extra = c.extra := by
  by_cases h : needsCorrection c m = [] <;> simp [correctAirport, h]

/-- C5 counterexample: `normalizeName` applied to a null name does not
return the empty key (or any key): the unguarded dereference fails. -/
theorem c5_counterexample :
    normalizeNameNullable none = none ∧
    normalizeNameNullable none ≠ some [] := by
  decide

/-- C5 amended: both normalizers are total over strings and the empty
string yields the empty key; `normalizeCountry` additionally maps a null
argument to the empty key, while `normalizeName` on null yields no key at
all. -/
theorem c5_total_on_strings :
    (∀ s, normalizeNameNullable (some s) = some (normalizeName s)) ∧
    normalizeName [] = [] ∧
    normalizeCountry [] = [] ∧
    normalizeCountryNullable none = [] ∧
    normalizeCountryNullable (some []) = [] :=
  ⟨fun _ => rfl, rfl, rfl, rfl, rfl⟩

/-- C7 counterexample: on `U.S.A.` the country key keeps its punctuation,
unlike the name-style derivation the claim describes. -/
theorem c7_counterexample :
    normalizeCountry "U.S.A.".data ≠ claimNormalizeCountry "U.S.A.".data ∧
    normalizeCountry "U.S.A.".data = "u.s.a.".data ∧
    claimNormalizeCountry "U.S.A.".data = "usa".data := by
  decide

/-- C7 amended: the country key is derived by lowercasing, stripping the
political phrases, collapsing whitespace runs and trimming — with no
punctuation-removal step. -/
theorem c7_country_key_derivation (s : List Char) :
    normalizeCountry s = claimNormalizeCountryAmended s := rfl

/-- C9 counterexample: an empty-named, code-less candidate matched against
a non-empty reference set whose name index has a bucket for the empty key
(a record named `Airport`) is exact-matched, not unverified. -/
theorem c9_counterexample :
    normalizeName emptyCandidate.airportName = [] ∧
    emptyCandidate.airportCode = [] ∧
    bareMaps.1 ≠ [] ∧ bareMaps.2 ≠ [] ∧
    findOpenFlightsMatch emptyCandidate bareMaps.1 bareMaps.2 =
      some (bareAirportRef, MatchType.exactNameCountry) ∧
    (processOne emptyCandidate bareMaps.1 bareMaps.2).unverified = false ∧
    (processOne emptyCandidate bareMaps.1 bareMaps.2).correctionStatus ≠
      CorrectionStatus.noMatch := by
  decide

/-- C9 amended: a candidate whose name normalizes to the empty key and
whose IATA code is empty yields no match and an unverified outcome,
provided the name index has no bucket for the empty key. -/
theorem c9_empty_candidate_unverified (c : Candidate) (nameIdx : NameIndex)
    (iataIdx : IataIndex)
    (hname : normalizeName c.airportName = [])
    (hcode : c.airportCode = [])
    (hbucket : mapGet nameIdx [] = none) :
    findOpenFlightsMatch c nameIdx iataIdx = none ∧
    (processOne c nameIdx iataIdx).correctionStatus =
      CorrectionStatus.noMatch ∧
    (processOne c nameIdx iataIdx).unverified = true := by
  have hex : exactNameStep c nameIdx = none := by
    unfold exactNameStep
    rw [hname, hbucket]
  have hp : findPartialNameMatch (normalizeName c.airportName) c.country
      nameIdx = none := by
    rw [hname]
    rfl
  have hi : iataStep c iataIdx = none := by
    unfold iataStep
    rw [if_neg (by simp [hcode])]
  have hmatch : findOpenFlightsMatch c nameIdx iataIdx = none := by
    simp only [findOpenFlightsMatch, hex, hp, hi]
  refine ⟨hmatch, ?_, ?_⟩ <;> simp [processOne, hmatch]

theorem c9_witness :
    (normalizeName emptyCandidate.airportName = [] ∧
      emptyCandidate.airportCode = [] ∧
      mapGet sampleMaps.1 [] = none ∧ sampleMaps.1 ≠ []) ∧
    (findOpenFlightsMatch emptyCandidate sampleMaps.1 sampleMaps.2 = none ∧
      (processOne emptyCandidate sampleMaps.1 sampleMaps.2).correctionStatus =
        CorrectionStatus.noMatch ∧
      (processOne emptyCandidate sampleMaps.1 sampleMaps.2).unverified =
        true) :=
  ⟨⟨by decide, by decide, by decide, by decide⟩,
    c9_empty_candidate_unverified emptyCandidate sampleMaps.1 sampleMaps.2
      (by decide) (by decide) (by decide)⟩

theorem partialLoop_eq_claim (words : List (List Char)) (country : List Char)
    (idx : NameIndex) :
    partialLoop words country idx = claimPartialLoop words country idx := by
  induction idx with
  | nil => rfl
  | cons hd tl ih =>
    obtain ⟨k, as⟩ := hd
    simp only [partialLoop, claimPartialLoop]
    split
    · cases hD : as.find?
        (fun a => decide (normalizeCountry a.country = normalizeCountry country)) with
      | some r => simp [hD]
      | none => simp [hD, ih]
    · exact ih

/-- C2 counterexample: a candidate normalized name of length at least 4
with no token longer than two characters: the code returns no partial
match, while the claimed characterization returns the country-matching
record of the (trivially hitting) bucket. -/
theorem c2_counterexample :
    normalizeName "Ab Cd".data = "ab cd".data ∧
    4 ≤ ("ab cd".data).length ∧
    findPartialNameMatch "ab cd".data "France".data xyzMaps.1 = none ∧
    claimPartialNameMatch "ab cd".data "France".data xyzMaps.1 =
      some xyzRef := by
  decide

/-- C2 amended: for a candidate normalized name of length at least 4 that
has at least one token longer than two characters, the partial-name
strategy behaves exactly as the claim characterizes it (threshold
`min 2 ⌈n/2⌉`, country filter, first hit in index order); a candidate
with no such token yields no partial match. -/
theorem c2_partial_match_characterization (normalizedName country : List Char)
    (nameIdx : NameIndex) (hlen : 4 ≤ normalizedName.length)
    (hwords : (splitOnSpace normalizedName).filter (fun w => 2 < w.length)
      ≠ []) :
    findPartialNameMatch normalizedName country nameIdx =
      claimPartialNameMatch normalizedName country nameIdx := by
  simp only [findPartialNameMatch, claimPartialNameMatch]
  rw [if_neg (by omega : ¬ normalizedName.length < 4), if_neg hwords]
  exact partialLoop_eq_claim _ _ _

theorem c2_witness :
    (4 ≤ ("paris orly".data).length ∧
      (splitOnSpace "paris orly".data).filter (fun w => 2 < w.length) ≠ []) ∧
    findPartialNameMatch "paris orly".data "France".data xyzMaps.1 =
      claimPartialNameMatch "paris orly".data "France".data xyzMaps.1 :=
  ⟨⟨by decide, by decide⟩,
    c2_partial_match_characterization "paris orly".data "France".data
      xyzMaps.1 (by decide) (by decide)⟩

theorem mem_of_mem_stripScan (toks : List (List Char)) :
    ∀ (fuel : Nat) (s : List Char) (c : Char),
      c ∈ stripScan toks fuel s → c ∈ s := by
  intro fuel
  induction fuel with
  | zero =>
    intro s c h
    cases s with
    | nil => simp only [stripScan] at h; cases h
    | cons a as => simpa only [stripScan] using h
  | succ n ih =>
    intro s c h
    cases s with
    | nil => simp only [stripScan] at h; cases h
    | cons a as =>
      simp only [stripScan] at h
      cases hf : toks.find? (fun t => t.isPrefixOf (a :: as)) with
      | some t =>
        rw [hf] at h
        exact List.drop_subset _ _ (ih _ _ h)
      | none =>
        rw [hf] at h
        cases h with
        | head => exact List.mem_cons_self _ _
        | tail _ h2 => exact List.mem_cons_of_mem _ (ih _ _ h2)

theorem mem_collapseAux :
    ∀ (s : List Char) (b : Bool) (c : Char), c ∈ collapseAux b s →
      c = ' ' ∨ (c ∈ s ∧ isJsSpace c = false) := by
  intro s
  induction s with
  | nil => intro b c h; simp only [collapseAux] at h; cases h
  | cons a as ih =>
    intro b c h
    simp only [collapseAux] at h
    by_cases ha : isJsSpace a = true
    · rw [if_pos ha] at h
      cases b with
      | true =>
        rcases ih true c h with h1 | h2
        · exact Or.inl h1
        · exact Or.inr ⟨List.mem_cons_of_mem _ h2.1, h2.2⟩
      | false =>
        cases h with
        | head => exact Or.inl rfl
        | tail _ h2 =>
          rcases ih true c h2 with h1 | h3
          · exact Or.inl h1
          · exact Or.inr ⟨List.mem_cons_of_mem _ h3.1, h3.2⟩
    · rw [if_neg ha] at h
      cases h with
      | head => exact Or.inr ⟨List.mem_cons_self _ _, by simpa using ha⟩
      | tail _ h2 =>
        rcases ih false c h2 with h1 | h3
        · exact Or.inl h1
        · exact Or.inr ⟨List.mem_cons_of_mem _ h3.1, h3.2⟩

theorem jsTrim_infix_self (l : List Char) : jsTrim l <:+: l := by
  have h1 : l.dropWhile isJsSpace <:+ l := List.dropWhile_suffix _
  obtain ⟨t, ht⟩ := List.dropWhile_suffix
    (l := (l.dropWhile isJsSpace).reverse) isJsSpace
  have hpre : jsTrim l <+: l.dropWhile isJsSpace := by
    refine ⟨t.reverse, ?_⟩
    have := congrArg List.reverse ht
    simpa [jsTrim] using this
  exact hpre.isInfix.trans h1.isInfix

theorem head?_dropWhile (p : Char → Bool) :
    ∀ (l : List Char) (c : Char), (l.dropWhile p).head? = some c →
      p c = false := by
  intro l
  induction l with
  | nil => intro c h; cases h
  | cons a as ih =>
    intro c h
    rw [List.dropWhile_cons] at h
    by_cases ha : p a = true
    · rw [if_pos ha] at h
      exact ih c h
    · rw [if_neg ha] at h
      simp only [List.head?_cons, Option.some.injEq] at h
      rw [← h]
      simpa using ha

theorem dropWhile_eq_self (p : Char → Bool) (l : List Char)
    (h : ∀ c, l.head? = some c → p c = false) : l.dropWhile p = l := by
  cases l with
  | nil => rfl
  | cons a as =>
    rw [List.dropWhile_cons, if_neg (by simp [h a rfl])]

theorem getLast?_of_suffix {l₁ l₂ : List Char} (h : l₁ <:+ l₂)
    (hne : l₁ ≠ []) : l₁.getLast? = l₂.getLast? := by
  obtain ⟨t, rfl⟩ := h
  rw [List.getLast?_append]
  cases hl : l₁.getLast? with
  | some x => rfl
  | none => exact absurd (by simpa using hl) hne

theorem jsTrim_head (l : List Char) (c : Char)
    (h : (jsTrim l).head? = some c) : isJsSpace c = false := by
  unfold jsTrim at h
  rw [List.head?_reverse] at h
  have hXne : (l.dropWhile isJsSpace).reverse.dropWhile isJsSpace ≠ [] := by
    intro hx
    rw [hx] at h
    cases h
  rw [getLast?_of_suffix (List.dropWhile_suffix _) hXne,
    List.getLast?_reverse] at h
  exact head?_dropWhile _ _ _ h

theorem jsTrim_last (l : List Char) (c : Char)
    (h : (jsTrim l).reverse.head? = some c) : isJsSpace c = false := by
  unfold jsTrim at h
  rw [List.reverse_reverse] at h
  exact head?_dropWhile _ _ _ h

theorem charOK_parts {c : Char} (h : charOK c = true) :
    jsLower c = c ∧ (isJsWordChar c = true ∨ c = ' ') := by
  unfold charOK at h
  simpa using h

theorem collapseAux_true_cons_space (a : Char) (as : List Char)
    (ha : isJsSpace a = true) :
    collapseAux true (a :: as) = collapseAux true as := by
  simp [collapseAux, ha]

theorem collapseAux_false_cons_space (a : Char) (as : List Char)
    (ha : isJsSpace a = true) :
    collapseAux false (a :: as) = ' ' :: collapseAux true as := by
  simp [collapseAux, ha]

theorem collapseAux_cons_nonspace (b : Bool) (a : Char) (as : List Char)
    (ha : isJsSpace a = false) :
    collapseAux b (a :: as) = a :: collapseAux false as := by
  simp [collapseAux, ha]

theorem collapseAux_true_head :
    ∀ (s : List Char) (c : Char), (collapseAux true s).head? = some c →
      isJsSpace c = false := by
  intro s
  induction s with
  | nil => intro c h; cases h
  | cons a as ih =>
    intro c h
    by_cases ha : isJsSpace a = true
    · rw [collapseAux_true_cons_space a as ha] at h
      exact ih c h
    · rw [collapseAux_cons_nonspace true a as (by simpa using ha)] at h
      simp only [List.head?_cons, Option.some.injEq] at h
      rw [← h]
      simpa using ha

theorem collapseAux_chain (s : List Char) :
    ∀ b, List.Chain' spaceRel (collapseAux b s) := by
  induction s with
  | nil => intro b; simp [collapseAux]
  | cons a as ih =>
    intro b
    by_cases ha : isJsSpace a = true
    · cases b with
      | true =>
        rw [collapseAux_true_cons_space a as ha]
        exact ih true
      | false =>
        rw [collapseAux_false_cons_space a as ha, List.chain'_cons']
        refine ⟨?_, ih true⟩
        intro y hy hcon
        have hys := collapseAux_true_head as y (Option.mem_def.mp hy)
        rw [hys] at hcon
        cases hcon.2
    · rw [collapseAux_cons_nonspace b a as (by simpa using ha),
        List.chain'_cons']
      refine ⟨?_, ih false⟩
      intro y hy hcon
      exact ha hcon.1

theorem collapseAux_fix (y : List Char) (hok : ∀ c ∈ y, charOK c = true)
    (hch : List.Chain' spaceRel y) :
    collapseAux false y = y ∧
      ((∀ c, y.head? = some c → isJsSpace c = false) →
        collapseAux true y = y) := by
  induction y with
  | nil => exact ⟨rfl, fun _ => rfl⟩
  | cons a as ih =>
    have hok' : ∀ c ∈ as, charOK c = true :=
      fun c hc => hok c (List.mem_cons_of_mem _ hc)
    have hch' : List.Chain' spaceRel as := (List.chain'_cons'.mp hch).2
    obtain ⟨ihf, iht⟩ := ih hok' hch'
    constructor
    · by_cases ha : isJsSpace a = true
      · have haok := charOK_parts (hok a (List.mem_cons_self _ _))
        have haeq : a = ' ' := by
          rcases haok.2 with hw | hsp
          · rw [word_not_space a hw] at ha
            cases ha
          · exact hsp
        have hhead : ∀ c, as.head? = some c → isJsSpace c = false := by
          intro c hc
          have hr := (List.chain'_cons'.mp hch).1 c (Option.mem_def.mpr hc)
          by_contra hcc
          exact hr ⟨ha, by simpa using hcc⟩
        rw [collapseAux_false_cons_space a as ha, iht hhead, haeq]
      · rw [collapseAux_cons_nonspace false a as (by simpa using ha), ihf]
    · intro hhd
      have ha : isJsSpace a = false := hhd a rfl
      rw [collapseAux_cons_nonspace true a as ha, ihf]

theorem stripScan_fix (toks : List (List Char)) :
    ∀ (fuel : Nat) (s : List Char),
      (∀ t ∈ toks, isSubstring t s = false) →
        stripScan toks fuel s = s := by
  intro fuel
  induction fuel with
  | zero => intro s h; cases s <;> rfl
  | succ n ih =>
    intro s h
    cases s with
    | nil => rfl
    | cons a as =>
      have hnosub : ∀ t ∈ toks,
          t.isPrefixOf (a :: as) = false ∧ isSubstring t as = false := by
        intro t ht
        have := h t ht
        rw [isSubstring, Bool.or_eq_false_iff] at this
        exact this
      have hf : toks.find? (fun t => t.isPrefixOf (a :: as)) = none := by
        rw [List.find?_eq_none]
        intro t ht
        simp [(hnosub t ht).1]
      simp only [stripScan, hf]
      rw [ih as (fun t ht => (hnosub t ht).2)]

theorem map_fix {α : Type} (f : α → α) (l : List α)
    (h : ∀ c ∈ l, f c = c) : l.map f = l := by
  induction l with
  | nil => rfl
  | cons a as ih =>
    rw [List.map_cons, h a (List.mem_cons_self _ _),
      ih (fun c hc => h c (List.mem_cons_of_mem _ hc))]

theorem normalizeName_canonical (x : List Char) :
    canonical (normalizeName x) := by
  refine ⟨?_, ?_, ?_, ?_⟩
  · intro c hc
    unfold normalizeName at hc
    have hc2 : c ∈ collapseSpaces
        ((stripTokens nameTokens (x.map jsLower)).filter
          (fun c => isJsWordChar c || isJsSpace c)) :=
      (jsTrim_infix_self _).subset hc
    unfold collapseSpaces at hc2
    rcases mem_collapseAux _ _ _ hc2 with h1 | h2
    · rw [h1]
      decide
    · obtain ⟨hmem, hns⟩ := h2
      rw [List.mem_filter] at hmem
      obtain ⟨hmem2, hp⟩ := hmem
      have hmemmap : c ∈ x.map jsLower := by
        unfold stripTokens at hmem2
        exact mem_of_mem_stripScan _ _ _ _ hmem2
      obtain ⟨c₀, _, hc₀⟩ := List.mem_map.mp hmemmap
      have hfix : jsLower c = c := by
        rw [← hc₀]
        exact jsLower_idem c₀
      have hword : isJsWordChar c = true := by
        have hp' : isJsWordChar c = true ∨ isJsSpace c = true := by
          simpa using hp
        rcases hp' with hw | hs
        · exact hw
        · rw [hns] at hs
          cases hs
      unfold charOK
      simp [hfix, hword]
  · unfold normalizeName
    exact List.Chain'.infix (collapseAux_chain _ false) (jsTrim_infix_self _)
  · intro c hc
    unfold normalizeName at hc
    exact jsTrim_head _ c hc
  · intro c hc
    unfold normalizeName at hc
    exact jsTrim_last _ c hc

theorem normalizeName_fix (y : List Char) (hcan : canonical y)
    (htok : ∀ t ∈ nameTokens, isSubstring t y = false) :
    normalizeName y = y := by
  obtain ⟨hok, hch, hhd, hlast⟩ := hcan
  have h1 : y.map jsLower = y :=
    map_fix _ _ (fun c hc => (charOK_parts (hok c hc)).1)
  have h2 : stripTokens nameTokens y = y := stripScan_fix _ _ _ htok
  have h3 : y.filter (fun c => isJsWordChar c || isJsSpace c) = y := by
    rw [List.filter_eq_self]
    intro c hc
    rcases (charOK_parts (hok c hc)).2 with hw | hsp
    · simp [hw]
    · rw [hsp]
      decide
  have h4 : collapseSpaces y = y := (collapseAux_fix y hok hch).1
  have h5 : jsTrim y = y := by
    unfold jsTrim
    rw [dropWhile_eq_self _ _ hhd, dropWhile_eq_self _ _ hlast,
      List.reverse_reverse]
  unfold normalizeName
  rw [h1, h2, h3, h4, h5]

/-- C4 counterexample: normalization of `air-port` yields `airport`
(the hyphen is removed after token stripping), and normalizing that again
strips the token `airport`, yielding the empty key. -/
theorem c4_counterexample :
    normalizeName "air-port".data = "airport".data ∧
    normalizeName (normalizeName "air-port".data) = [] ∧
    normalizeName (normalizeName "air-port".data) ≠
      normalizeName "air-port".data := by
  decide

/-- C4 amended: `normalizeName` is idempotent on every input whose
normalized key contains no occurrence of the five stripped tokens; in
general a second normalization can strip a token that the first pass
assembled. -/
theorem c4_idempotent_of_no_token (x : List Char)
    (htok : ∀ t ∈ nameTokens, isSubstring t (normalizeName x) = false) :
    normalizeName (normalizeName x) = normalizeName x :=
  normalizeName_fix _ (normalizeName_canonical x) htok

theorem c4_witness :
    (∀ t ∈ nameTokens,
      isSubstring t (normalizeName "Paris Orly Airport".data) = false) ∧
    normalizeName (normalizeName "Paris Orly Airport".data) =
      normalizeName "Paris Orly Airport".data :=
  ⟨by decide, c4_idempotent_of_no_token "Paris Orly Airport".data (by decide)⟩

/-- C8 counterexample: the normalized key of `_` is `_` itself, and an
underscore is neither a letter, a digit, nor whitespace. -/
theorem c8_counterexample :
    normalizeName "_".data = "_".data ∧
    ('_' ∈ normalizeName "_".data) ∧
    ('_'.isAlpha || '_'.isDigit || isJsSpace '_') = false := by
  decide

/-- C8 amended: every character of a normalized key is an ASCII word
character (letter, digit or underscore) or a single space; everything
else — including the underscore the original claim excluded — survives or
is removed according to the `\w` class. -/
theorem c8_output_charset (s : List Char) :
    (normalizeName s).all (fun c => isJsWordChar c || c == ' ') = true := by
  rw [List.all_eq_true]
  intro c hc
  rcases (charOK_parts ((normalizeName_canonical s).1 c hc)).2 with hw | hsp
  · simp [hw]
  · rw [hsp]
    decide

end AirportData
